import Mathlib

/-!
Verification of `twodfinite_well.py` (bound states of an AlGaAs/GaAs finite
quantum well computed with FEniCS/DOLFIN).

The script is a straight-line pipeline: capability checks, material and
geometry constants, layer subdomains, a rectangular mesh with cell marking,
bilinear forms, matrix assembly, a SLEPc generalized eigensolve, and a while
loop that collects bound states.  The development below shallowly embeds each
of these pieces: rationals stand for the exact real-valued constants, the
bilinear forms become a small symbolic AST, the assembly section becomes an
event trace, the external eigensolver becomes an abstract sequence of
eigenpairs, and the bound-state while loop becomes a fuel-indexed recursive
function on an explicit loop state.
-/

namespace FiniteWell

/-! ## Physical and geometric constants (from the script's header section) -/

/-- hbar^2/2m0 scaled so that all units are in eV and Angstroms (`hb2m = 3.81`). -/
def hb2m : ℚ := 381 / 100

/-- Thickness of the well in Angstroms (`dwell = 80`). -/
def dwell : ℚ := 80

/-- Thickness of the barriers (`dbar = 250`). -/
def dbar : ℚ := 250

/-- Total thickness of the structure (`dtot = 2*dbar + dwell`). -/
def dtot : ℚ := 2 * dbar + dwell

/-- Potential in the well in eV (`vwell = 0.0`). -/
def vwell : ℚ := 0

/-- Potential in the barrier (`vbar = 0.23`). -/
def vbar : ℚ := 23 / 100

/-- Potential in the three layers: `vpot = [vbar, vwell, vbar]`
(built by three successive `append` calls in the script). -/
def vpot : List ℚ := [vbar, vwell, vbar]

/-- Effective mass in the well (`mwell = 0.067`). -/
def mwell : ℚ := 67 / 1000

/-- Effective mass in the barrier (`mbar = 0.096`). -/
def mbar : ℚ := 96 / 1000

/-- Stiffness matrix factor in the three layers:
`f = [hb2m/mbar, hb2m/mwell, hb2m/mbar]`. -/
def f : List ℚ := [hb2m / mbar, hb2m / mwell, hb2m / mbar]

/-- Number of elements per axis (`nel = 20`). -/
def nel : ℕ := 20

/-- Declared order of the Lagrange trial/test functions (`p = 2`);
the script never uses it again. -/
def p : ℕ := 2

/-! ## Layers -/

/-- The `ends` tuples of the three `Layer` subdomain instances:
`Layer((0,dbar))`, `Layer((dbar,dbar+dwell))`, `Layer((dbar+dwell,dtot))`. -/
def layersEnds : List (ℚ × ℚ) := [(0, dbar), (dbar, dbar + dwell), (dbar + dwell, dtot)]

/-- DOLFIN's `between(x, ends)` predicate used by `Layer.inside`:
membership of `x` in the closed interval `[ends.1, ends.2]`. -/
def between (x : ℚ) (ends : ℚ × ℚ) : Bool := decide (ends.1 ≤ x ∧ x ≤ ends.2)

/-- Claim C3: the three layer subdomains exactly tile `[0, dtot)` contiguously:
layer 1 spans `(0, dbar)`, layer 2 spans `(dbar, dbar+dwell)`, layer 3 spans
`(dbar+dwell, dtot)`, `dtot = 2*dbar + dwell`, each layer's end coincides with
the next layer's start, the last layer ends at `dtot`, and the half-open layer
intervals cover `[0, dtot)` with no gaps and no overlaps. -/
theorem layers_tile_dtot :
    dtot = 2 * dbar + dwell ∧
    (layersEnds.getD 0 (0, 0)).1 = 0 ∧
    (layersEnds.getD 0 (0, 0)).2 = (layersEnds.getD 1 (0, 0)).1 ∧
    (layersEnds.getD 1 (0, 0)).2 = (layersEnds.getD 2 (0, 0)).1 ∧
    (layersEnds.getD 2 (0, 0)).2 = dtot ∧
    (∀ x : ℚ, (0 ≤ x ∧ x < dtot) ↔
      ∃ k, k < 3 ∧ (layersEnds.getD k (0, 0)).1 ≤ x ∧ x < (layersEnds.getD k (0, 0)).2) ∧
    (∀ x : ℚ, ∀ k j, k < 3 → j < 3 →
      ((layersEnds.getD k (0, 0)).1 ≤ x ∧ x < (layersEnds.getD k (0, 0)).2) →
      ((layersEnds.getD j (0, 0)).1 ≤ x ∧ x < (layersEnds.getD j (0, 0)).2) → k = j) := by
  refine ⟨rfl, rfl, rfl, rfl, ?_, ?_, ?_⟩
  · simp [layersEnds, dtot, dbar, dwell]
  · intro x
    constructor
    · rintro ⟨hx0, hxd⟩
      rcases lt_or_le x dbar with h1 | h1
      · exact ⟨0, by norm_num, by simpa [layersEnds] using ⟨hx0, h1⟩⟩
      · rcases lt_or_le x (dbar + dwell) with h2 | h2
        · exact ⟨1, by norm_num, by simpa [layersEnds] using ⟨h1, h2⟩⟩
        · exact ⟨2, by norm_num, by simpa [layersEnds] using ⟨h2, hxd⟩⟩
    · rintro ⟨k, hk, hlo, hhi⟩
      interval_cases k <;>
        simp [layersEnds, dbar, dwell, dtot] at hlo hhi ⊢ <;>
        constructor <;> linarith
  · intro x k j hk hj hmk hmj
    interval_cases k <;> interval_cases j <;>
      simp [layersEnds, dbar, dwell, dtot] at hmk hmj <;>
      first
        | rfl
        | (exfalso; obtain ⟨hk1, hk2⟩ := hmk; obtain ⟨hj1, hj2⟩ := hmj; linarith)

/-- Witness for `layers_tile_dtot`: the coverage direction applied at the
concrete point `x = 125`, with its hypotheses discharged there. -/
theorem layers_tile_dtot_witness :
    ∃ k, k < 3 ∧ (layersEnds.getD k (0, 0)).1 ≤ (125 : ℚ) ∧
      (125 : ℚ) < (layersEnds.getD k (0, 0)).2 :=
  (layers_tile_dtot.2.2.2.2.2.1 125).mp (by norm_num [dtot, dbar, dwell])

/-! ## Mesh cells and subdomain marking (C7)

`RectangleMesh(0,0,dtot,dtot,nel,nel)` builds an `nel × nel` grid of squares of
side `dtot/nel`, each split into two triangles.  Only the x-coordinate of a
cell's centroid matters to the layer predicates: for the two triangles of
column `i` it is `(3i+1)/3 · (dtot/nel)` and `(3i+2)/3 · (dtot/nel)`
(whichever diagonal convention the library uses yields these two values). -/

/-- x-coordinate of the centroid of a triangular cell in column `i` of the
`nel × nel` rectangle mesh; `upper` selects which of the column's two
triangles per square. -/
def cellCentroidX (i : ℕ) (upper : Bool) : ℚ :=
  (dtot / (nel : ℚ)) * ((3 * i + (if upper then 2 else 1)) / 3)

/-- The cell-marking loop `for k in range(3): layers[k].mark(domains, k)`.
The external library's `mark` is modelled per the spec's description of it:
a cell is marked `k` when layer `k`'s interval contains the cell's x-axis
centroid (the `Layer.inside` predicate, i.e. `between`); marks are applied
for `k = 0, 1, 2` in order, later marks overwriting earlier ones, starting
from an unmarked (`none`) state. -/
def markCell (x : ℚ) : Option ℕ :=
  (List.range 3).foldl
    (fun acc k => if between x (layersEnds.getD k (0, 0)) then some k else acc) none

/-- Unfolding of the marking fold: the last matching layer wins. -/
lemma markCell_unfold (x : ℚ) : markCell x =
    if between x (layersEnds.getD 2 (0, 0)) then some 2
    else if between x (layersEnds.getD 1 (0, 0)) then some 1
    else if between x (layersEnds.getD 0 (0, 0)) then some 0
    else none := rfl

/-- The first layer's span is `(0, 250)`. -/
lemma layersEnds_getD_zero : layersEnds.getD 0 (0, 0) = (0, 250) := by
  norm_num [layersEnds, dbar]

/-- The second layer's span is `(250, 330)`. -/
lemma layersEnds_getD_one : layersEnds.getD 1 (0, 0) = (250, 330) := by
  norm_num [layersEnds, dbar, dwell]

/-- The third layer's span is `(330, 580)`. -/
lemma layersEnds_getD_two : layersEnds.getD 2 (0, 0) = (330, 580) := by
  norm_num [layersEnds, dbar, dwell, dtot]

/-- `between` unfolded to its two inequalities. -/
lemma between_eq_true_iff (x a b : ℚ) : between x (a, b) = true ↔ a ≤ x ∧ x ≤ b := by
  simp [between]

/-- The marking outcome for a point strictly inside layer 0's span. -/
lemma markCell_spec_layer0 (x : ℚ) (h0 : 0 ≤ x) (h1 : x < 250) :
    ∃ k, k < 3 ∧ markCell x = some k ∧
      between x (layersEnds.getD k (0, 0)) = true ∧
      ∀ j, j < 3 → between x (layersEnds.getD j (0, 0)) = true → j = k := by
  refine ⟨0, by norm_num, ?_, ?_, ?_⟩
  · rw [markCell_unfold, layersEnds_getD_zero, layersEnds_getD_one, layersEnds_getD_two]
    have b2 : between x (330, 580) = false := by
      rw [Bool.eq_false_iff, Ne, between_eq_true_iff]
      rintro ⟨hc, -⟩; linarith
    have b1 : between x ((250 : ℚ), 330) = false := by
      rw [Bool.eq_false_iff, Ne, between_eq_true_iff]
      rintro ⟨hc, -⟩; linarith
    have b0 : between x ((0 : ℚ), 250) = true := by
      rw [between_eq_true_iff]; exact ⟨h0, by linarith⟩
    rw [b2, b1, b0]; rfl
  · rw [layersEnds_getD_zero, between_eq_true_iff]
    exact ⟨h0, by linarith⟩
  · intro j hj hb
    interval_cases j
    · rfl
    · rw [layersEnds_getD_one, between_eq_true_iff] at hb
      exfalso; linarith [hb.1]
    · rw [layersEnds_getD_two, between_eq_true_iff] at hb
      exfalso; linarith [hb.1]

/-- The marking outcome for a point strictly inside layer 1's span. -/
lemma markCell_spec_layer1 (x : ℚ) (h0 : 250 < x) (h1 : x < 330) :
    ∃ k, k < 3 ∧ markCell x = some k ∧
      between x (layersEnds.getD k (0, 0)) = true ∧
      ∀ j, j < 3 → between x (layersEnds.getD j (0, 0)) = true → j = k := by
  refine ⟨1, by norm_num, ?_, ?_, ?_⟩
  · rw [markCell_unfold, layersEnds_getD_zero, layersEnds_getD_one, layersEnds_getD_two]
    have b2 : between x (330, 580) = false := by
      rw [Bool.eq_false_iff, Ne, between_eq_true_iff]
      rintro ⟨hc, -⟩; linarith
    have b1 : between x ((250 : ℚ), 330) = true := by
      rw [between_eq_true_iff]; exact ⟨le_of_lt h0, le_of_lt h1⟩
    rw [b2, b1]; rfl
  · rw [layersEnds_getD_one, between_eq_true_iff]
    exact ⟨le_of_lt h0, le_of_lt h1⟩
  · intro j hj hb
    interval_cases j
    · rw [layersEnds_getD_zero, between_eq_true_iff] at hb
      exfalso; linarith [hb.2]
    · rfl
    · rw [layersEnds_getD_two, between_eq_true_iff] at hb
      exfalso; linarith [hb.1]

/-- The marking outcome for a point strictly inside layer 2's span. -/
lemma markCell_spec_layer2 (x : ℚ) (h0 : 330 < x) (h1 : x ≤ 580) :
    ∃ k, k < 3 ∧ markCell x = some k ∧
      between x (layersEnds.getD k (0, 0)) = true ∧
      ∀ j, j < 3 → between x (layersEnds.getD j (0, 0)) = true → j = k := by
  refine ⟨2, by norm_num, ?_, ?_, ?_⟩
  · rw [markCell_unfold, layersEnds_getD_two]
    have b2 : between x (330, 580) = true := by
      rw [between_eq_true_iff]; exact ⟨le_of_lt h0, h1⟩
    rw [b2]; rfl
  · rw [layersEnds_getD_two, between_eq_true_iff]
    exact ⟨le_of_lt h0, h1⟩
  · intro j hj hb
    interval_cases j
    · rw [layersEnds_getD_zero, between_eq_true_iff] at hb
      exfalso; linarith [hb.2]
    · rw [layersEnds_getD_one, between_eq_true_iff] at hb
      exfalso; linarith [hb.2]
    · rfl

/-- Claim C7: every cell of the `nel × nel` rectangular mesh of side `dtot`
is marked with the index (0, 1, or 2) of the layer interval that contains the
cell's x-axis centroid: the marking produced by the loop equals the unique
layer index whose interval contains the centroid. -/
theorem cells_marked_by_centroid_layer :
    ∀ i, i < nel → ∀ upper : Bool,
      ∃ k, k < 3 ∧ markCell (cellCentroidX i upper) = some k ∧
        between (cellCentroidX i upper) (layersEnds.getD k (0, 0)) = true ∧
        ∀ j, j < 3 → between (cellCentroidX i upper) (layersEnds.getD j (0, 0)) = true →
          j = k := by
  intro i hi upper
  simp only [nel] at hi
  interval_cases i <;> cases upper <;>
    solve
      | (apply markCell_spec_layer0 <;>
          norm_num [cellCentroidX, dtot, dbar, dwell, nel])
      | (apply markCell_spec_layer1 <;>
          norm_num [cellCentroidX, dtot, dbar, dwell, nel])
      | (apply markCell_spec_layer2 <;>
          norm_num [cellCentroidX, dtot, dbar, dwell, nel])

/-- Witness for `cells_marked_by_centroid_layer` at the concrete cell in
column 0 (lower triangle), discharging the bound `0 < nel`. -/
theorem cells_marked_by_centroid_layer_witness :
    ∃ k, k < 3 ∧ markCell (cellCentroidX 0 false) = some k ∧
      between (cellCentroidX 0 false) (layersEnds.getD k (0, 0)) = true ∧
      ∀ j, j < 3 → between (cellCentroidX 0 false) (layersEnds.getD j (0, 0)) = true →
        j = k :=
  cells_marked_by_centroid_layer 0 (by norm_num [nel]) false

/-! ## Variational forms (C6)

A small symbolic AST for the UFL expressions the script builds.  A
`FormTerm.gradInner c` stands for `inner(c*grad(u), grad(v))`, a
`FormTerm.uv c` for `c*u*v` (with `c = 1` for a plain `u*v`), and
`Form.integral t k` for `t*dx(k)`.  Python's `sum` starts from `0`
(`Form.zero`) and adds the mapped terms left to right. -/

/-- Symbolic integrand built from trial function `u` and test function `v`. -/
inductive FormTerm
  | gradInner (c : ℚ)
  | uv (c : ℚ)
  | add (a b : FormTerm)
deriving DecidableEq

/-- Symbolic bilinear form: a sum of integrals over numbered subdomains. -/
inductive Form
  | zero
  | add (a b : Form)
  | integral (t : FormTerm) (k : ℕ)
deriving DecidableEq

/-- The Hamiltonian form
`h = sum(map(lambda k: (inner(f[k]*grad(u),grad(v))+Vpot[k]*u*v)*dx(k), range(3)))`. -/
def h : Form :=
  (List.range 3).foldl
    (fun acc k => Form.add acc
      (Form.integral
        (FormTerm.add (FormTerm.gradInner (f.getD k 0)) (FormTerm.uv (vpot.getD k 0))) k))
    Form.zero

/-- The mass form `m = sum(map(lambda k: u*v*dx(k), range(3)))`. -/
def m : Form :=
  (List.range 3).foldl
    (fun acc k => Form.add acc (Form.integral (FormTerm.uv 1) k))
    Form.zero

/-- The Hamiltonian form as the claim words it: the sum over the three layers
of `(f_k·∇u·∇v + V_k·u·v) dx(k)` with per-layer coefficients `(hb2m/mbar, vbar)`
for the two barrier layers and `(hb2m/mwell, vwell)` for the well layer. -/
def hamiltonianFormSpec : Form :=
  Form.add
    (Form.add
      (Form.add Form.zero
        (Form.integral
          (FormTerm.add (FormTerm.gradInner (hb2m / mbar)) (FormTerm.uv vbar)) 0))
      (Form.integral
        (FormTerm.add (FormTerm.gradInner (hb2m / mwell)) (FormTerm.uv vwell)) 1))
    (Form.integral
      (FormTerm.add (FormTerm.gradInner (hb2m / mbar)) (FormTerm.uv vbar)) 2)

/-- The mass form as the claim words it: the sum of `u*v dx(k)` over the same
three layer subdomains. -/
def massFormSpec : Form :=
  Form.add
    (Form.add
      (Form.add Form.zero (Form.integral (FormTerm.uv 1) 0))
      (Form.integral (FormTerm.uv 1) 1))
    (Form.integral (FormTerm.uv 1) 2)

/-- Claim C6: the script's Hamiltonian bilinear form is the sum over the three
layers of the stiffness plus potential integrand with the claimed per-layer
coefficients, and the mass form is the sum of `u*v` over the same subdomains. -/
theorem forms_match_claimed_coefficients :
    h = hamiltonianFormSpec ∧ m = massFormSpec :=
  ⟨rfl, rfl⟩

/-! ## Assembly events and boundary conditions (C4)

The assembly section of the script as an event trace: the only operations the
script ever performs on the matrices `H` and `M` are the two `assemble` calls
and the final eigensolve; the `DirichletBC` objects are constructed (`bcs`)
but never applied to any matrix. -/

/-- The two PETSc matrices of the script. -/
inductive MatName
  | H
  | M
deriving DecidableEq

/-- An operation touching a matrix: assembling a form into it, applying a
Dirichlet boundary condition to it, or consuming it in the eigensolve. -/
inductive AsmEvent
  | assembleInto (target : MatName)
  | applyBC (bc : String × ℚ) (target : MatName)
  | eigensolve (a b : MatName)
deriving DecidableEq

/-- The Dirichlet boundary conditions the script constructs:
`bcs = [DirichletBC(V,0.0,left), DirichletBC(V,0.0,right)]`,
modelled as (boundary name, boundary value) pairs. -/
def bcs : List (String × ℚ) := [("left", 0), ("right", 0)]

/-- The matrix operations the script performs, in program order:
`assemble(h,tensor=H)`, `assemble(m,tensor=M)`, then
`SLEPcEigenSolver(H,M)` / `eigensolver.solve()`.  No other statement of the
script takes `H` or `M` (or a `DirichletBC`) as an argument. -/
def assemblyTrace : List AsmEvent :=
  [AsmEvent.assembleInto MatName.H,
   AsmEvent.assembleInto MatName.M,
   AsmEvent.eigensolve MatName.H MatName.M]

/-- Whether an event writes to the given matrix. -/
def mutates (e : AsmEvent) (t : MatName) : Bool :=
  match e with
  | .assembleInto t' => decide (t' = t)
  | .applyBC _ t' => decide (t' = t)
  | .eigensolve _ _ => false

/-- Whether an event is a boundary-condition application. -/
def isBCApply (e : AsmEvent) : Bool :=
  match e with
  | .applyBC _ _ => true
  | _ => false

/-- Claim C4: `H` and `M` are each written exactly once (their assembly) and
never mutated afterwards; no boundary-condition application touches any
matrix, although two Dirichlet conditions are constructed; the trace ends by
handing both matrices to the eigensolver. -/
theorem matrices_assembled_once_no_bc :
    assemblyTrace.countP (fun e => mutates e MatName.H) = 1 ∧
    assemblyTrace.countP (fun e => mutates e MatName.M) = 1 ∧
    assemblyTrace.countP isBCApply = 0 ∧
    bcs.length = 2 ∧
    assemblyTrace.getLast? = some (AsmEvent.eigensolve MatName.H MatName.M) :=
  ⟨rfl, rfl, rfl, rfl, rfl⟩

/-! ## Capability checks and control flow (C5) -/

/-- The stages of the pipeline that run after the two capability checks. -/
inductive PipelineStep
  | buildMesh
  | markDomains
  | markBoundaries
  | buildFunctionSpace
  | defineForms
  | assembleMatrices
  | solveEigenproblem
  | reportBoundStates
  | capabilityCheck
deriving DecidableEq

/-- Either an early diagnostic exit, or a run of the listed pipeline stages. -/
inductive ScriptOutcome
  | earlyExit (msg : String)
  | ran (steps : List PipelineStep)

/-- Diagnostic printed when PETSc is absent. -/
def petscMissingMsg : String := "DOLFIN has not been configured with PETSc. Exiting"

/-- Diagnostic printed when SLEPc is absent. -/
def slepcMissingMsg : String := "DOLFIN has not been configured with SLEPc. Exiting"

/-- The stages the script executes, in order, once both checks pass; no
further capability check appears among them. -/
def fullPipeline : List PipelineStep :=
  [PipelineStep.buildMesh, PipelineStep.markDomains, PipelineStep.markBoundaries,
   PipelineStep.buildFunctionSpace, PipelineStep.defineForms,
   PipelineStep.assembleMatrices, PipelineStep.solveEigenproblem,
   PipelineStep.reportBoundStates]

/-- The script's top-level control flow:
`if not has_linear_algebra_backend("PETSc"): print ...; exit()` then
`if not has_slepc(): print ...; exit()`, placed before every other statement,
then the pipeline. -/
def script (hasPETSc hasSLEPc : Bool) : ScriptOutcome :=
  if !hasPETSc then ScriptOutcome.earlyExit petscMissingMsg
  else if !hasSLEPc then ScriptOutcome.earlyExit slepcMissingMsg
  else ScriptOutcome.ran fullPipeline

/-- The pipeline stages an outcome actually executed (none on an early exit). -/
def stepsOf : ScriptOutcome → List PipelineStep
  | .earlyExit _ => []
  | .ran steps => steps

/-- Claim C5: a missing PETSc backend exits with its diagnostic before any
pipeline stage runs; with PETSc present, a missing SLEPc backend does the
same; with both present the whole pipeline runs and contains no further
capability check. -/
theorem backend_checks_gate_pipeline :
    (∀ hasSLEPc : Bool, script false hasSLEPc = ScriptOutcome.earlyExit petscMissingMsg ∧
      stepsOf (script false hasSLEPc) = []) ∧
    (script true false = ScriptOutcome.earlyExit slepcMissingMsg ∧
      stepsOf (script true false) = []) ∧
    script true true = ScriptOutcome.ran fullPipeline ∧
    PipelineStep.capabilityCheck ∉ fullPipeline := by
  refine ⟨fun hasSLEPc => ⟨rfl, rfl⟩, ⟨rfl, rfl⟩, rfl, ?_⟩
  decide

/-- Witness for `backend_checks_gate_pipeline`: with PETSc absent (and SLEPc
present) the script exits early with the PETSc diagnostic and runs no
pipeline stage. -/
theorem backend_checks_gate_pipeline_witness :
    script false true = ScriptOutcome.earlyExit petscMissingMsg ∧
      stepsOf (script false true) = [] :=
  backend_checks_gate_pipeline.1 true

/-! ## Function-space degree (C8) -/

/-- The family and polynomial degree passed to `FunctionSpace`. -/
structure SpaceSpec where
  family : String
  degree : ℕ
deriving DecidableEq

/-- The function space of the script:
`V = FunctionSpace(mesh,"CG",1, constrained_domain=PeriodicBoundary())` —
the degree argument is the literal `1`, not the variable `p`. -/
def V : SpaceSpec := ⟨"CG", 1⟩

/-- Everything the script computes downstream of the declaration of `p`. -/
structure DownstreamResults where
  space : SpaceSpec
  hamiltonianForm : Form
  massForm : Form
  events : List AsmEvent

/-- The downstream computations as a function of the declared degree variable:
the script's text never mentions `p` after its declaration, so no component
of the result depends on it. -/
def downstreamOf (_pDeclared : ℕ) : DownstreamResults :=
  ⟨V, h, m, assemblyTrace⟩

/-- Claim C8: the function space is built with polynomial degree 1 (continuous
Lagrange), the declared `p` equals 2, and every downstream computation is
identical to a run with any other value of `p` (in particular one where `p`
is absent). -/
theorem degree_variable_p_unused :
    V.degree = 1 ∧ V.family = "CG" ∧ p = 2 ∧
    ∀ q : ℕ, downstreamOf q = downstreamOf p :=
  ⟨rfl, rfl, rfl, fun _ => rfl⟩

/-! ## The bound-state while loop (C1, C2, C9, C10)

`eigensolver.get_eigenpair(dex)` returns a quadruple
`r, c, rx, cx` — real and complex parts of the eigenvalue and of the
eigenvector.  The loop
```
r = 0; dex = 0; E = []; Psi = []
while r < vbar:
    r, c, rx, cx = eigensolver.get_eigenpair(dex)
    u = Function(V); u.vector()[:] = rx
    E.append(r); Psi.append(u)
    dex += 1
boundstates = len(E) - 1
```
is embedded as a fuel-indexed recursion over an explicit state; the external
solver is an abstract sequence of eigenpairs.  A stored eigenfunction is
modelled by its coefficient vector (`u.vector()[:] = rx`). -/

/-- One eigenpair as returned by `get_eigenpair`: real/complex parts of the
eigenvalue (`r`, `c`) and of the eigenvector (`rx`, `cx`). -/
structure Eigenpair where
  r : ℚ
  c : ℚ
  rx : List ℚ
  cx : List ℚ

/-- The mutable state of the bound-state while loop. -/
structure LoopState where
  r : ℚ
  dex : ℕ
  E : List ℚ
  Psi : List (List ℚ)

/-- The state just before the loop: `r = 0`, `dex = 0`, `E = []`, `Psi = []`. -/
def loopInit : LoopState := ⟨0, 0, [], []⟩

/-- One execution of the loop body: fetch eigenpair `dex`, keep its real
parts, append them to `E` and `Psi`, increment `dex`. -/
def loopBody (solver : ℕ → Eigenpair) (s : LoopState) : LoopState :=
  { r := (solver s.dex).r
    dex := s.dex + 1
    E := s.E ++ [(solver s.dex).r]
    Psi := s.Psi ++ [(solver s.dex).rx] }

/-- The `while r < vbar` loop, indexed by fuel; `none` means the fuel ran out
before the loop condition failed. -/
def loopRun (solver : ℕ → Eigenpair) : ℕ → LoopState → Option LoopState
  | 0, s => if s.r < vbar then none else some s
  | fuel + 1, s =>
      if s.r < vbar then loopRun solver fuel (loopBody solver s) else some s

/-- `boundstates = len(E) - 1`. -/
def boundstates (s : LoopState) : ℕ := s.E.length - 1

/-- The pairs printed and plotted by `for k in range(boundstates)`. -/
def reportedPairs (s : LoopState) : List (ℚ × List ℚ) :=
  (List.range (boundstates s)).map (fun k => (s.E.getD k 0, s.Psi.getD k []))

/-- A list built by mapping over `List.range` reads back its entries. -/
lemma getD_map_range {α : Type} (g : ℕ → α) {n k : ℕ} (hk : k < n) (d : α) :
    ((List.range n).map g).getD k d = g k := by
  have hlen : k < ((List.range n).map g).length := by simpa using hk
  rw [List.getD_eq_getElem _ _ hlen, List.getElem_map, List.getElem_range]

/-- Once the loop condition fails, any amount of fuel returns the state. -/
lemma loopRun_done (solver : ℕ → Eigenpair) (fuel : ℕ) (s : LoopState)
    (hs : ¬ s.r < vbar) : loopRun solver fuel s = some s := by
  cases fuel <;> simp [loopRun, hs]

/-- Core characterization of the while loop, from an arbitrary entry state:
if `n` is the first index at or beyond `dex` whose eigenvalue reaches `vbar`,
and the entry value of `r` is below `vbar`, then the loop fetches exactly
eigenpairs `dex, …, n`, appends their real parts, and stops with `dex = n+1`. -/
lemma loopRun_char (solver : ℕ → Eigenpair) (n : ℕ)
    (hn : vbar ≤ (solver n).r) :
    ∀ fuel d (E0 : List ℚ) (Psi0 : List (List ℚ)) (r0 : ℚ),
      (∀ j, d ≤ j → j < n → (solver j).r < vbar) →
      d ≤ n → n + 1 - d ≤ fuel → r0 < vbar →
      loopRun solver fuel ⟨r0, d, E0, Psi0⟩ =
        some ⟨(solver n).r, n + 1,
          E0 ++ (List.range' d (n + 1 - d)).map (fun j => (solver j).r),
          Psi0 ++ (List.range' d (n + 1 - d)).map (fun j => (solver j).rx)⟩ := by
  intro fuel
  induction fuel with
  | zero =>
      intro d E0 Psi0 r0 hlt hd hf hr
      omega
  | succ fuel ih =>
      intro d E0 Psi0 r0 hlt hd hf hr
      simp only [loopRun, hr, if_pos]
      by_cases hdn : d = n
      · subst hdn
        have hstop : ¬ (loopBody solver ⟨r0, d, E0, Psi0⟩).r < vbar := by
          simp only [loopBody, not_lt]
          exact hn
        rw [loopRun_done solver fuel _ hstop]
        have hone : d + 1 - d = 1 := by omega
        simp only [loopBody, hone]
        rw [List.range'_succ d 0 1]
        simp
      · have hdn' : d < n := lt_of_le_of_ne hd hdn
        have hbody : (loopBody solver ⟨r0, d, E0, Psi0⟩).r < vbar :=
          hlt d le_rfl hdn'
        have hrec := ih (d + 1) (E0 ++ [(solver d).r]) (Psi0 ++ [(solver d).rx])
          ((solver d).r) (fun j hj hjn => hlt j (by omega) hjn)
          (by omega) (by omega) (hlt d le_rfl hdn')
        simp only [loopBody] at hrec ⊢
        rw [hrec]
        have hsplit : n + 1 - d = (n - d) + 1 := by omega
        rw [hsplit, List.range'_succ d (n - d) 1]
        simp

/-- The loop from its initial state: if `n` is the first index whose
eigenvalue reaches `vbar`, the loop fetches eigenpairs `0, …, n`. -/
lemma loopRun_char_init (solver : ℕ → Eigenpair) (n : ℕ)
    (hn : vbar ≤ (solver n).r) (hlt : ∀ j, j < n → (solver j).r < vbar)
    (fuel : ℕ) (hf : n + 1 ≤ fuel) :
    loopRun solver fuel loopInit =
      some ⟨(solver n).r, n + 1,
        (List.range (n + 1)).map (fun j => (solver j).r),
        (List.range (n + 1)).map (fun j => (solver j).rx)⟩ := by
  have hr0 : (0 : ℚ) < vbar := by norm_num [vbar]
  have hc := loopRun_char solver n hn fuel 0 [] [] 0
    (fun j _ hjn => hlt j hjn) (Nat.zero_le n) (by omega) hr0
  simpa [loopInit, List.range_eq_range'] using hc

/-- The reported pairs of a final loop state are exactly the first `n`
fetched eigenpairs. -/
lemma reportedPairs_char (solver : ℕ → Eigenpair) (n : ℕ) :
    reportedPairs ⟨(solver n).r, n + 1,
        (List.range (n + 1)).map (fun j => (solver j).r),
        (List.range (n + 1)).map (fun j => (solver j).rx)⟩ =
      (List.range n).map (fun j => ((solver j).r, (solver j).rx)) := by
  unfold reportedPairs
  have hb : boundstates ⟨(solver n).r, n + 1,
      (List.range (n + 1)).map (fun j => (solver j).r),
      (List.range (n + 1)).map (fun j => (solver j).rx)⟩ = n := by
    simp [boundstates]
  rw [hb]
  apply List.map_congr_left
  intro k hk
  have hkn : k < n := List.mem_range.mp hk
  dsimp only
  rw [getD_map_range _ (by omega), getD_map_range _ (by omega)]

/-- Claim C1: starting from index 0, the loop repeatedly fetches the next
eigenpair while the last-seen eigenvalue is strictly below `vbar`, appending
each fetched (eigenvalue, eigenvector) pair to `E` and `Psi`; it terminates on
the first eigenvalue `≥ vbar`, which is appended (it is `E`'s last entry) but
excluded from the report: `boundstates = len(E) - 1 = n`, and exactly the
first `len(E) - 1` accumulated pairs are printed and plotted. -/
theorem bound_state_loop_collects_until_vbar (solver : ℕ → Eigenpair) (n : ℕ)
    (hn : vbar ≤ (solver n).r) (hlt : ∀ j, j < n → (solver j).r < vbar)
    (fuel : ℕ) (hf : n + 1 ≤ fuel) :
    ∃ s, loopRun solver fuel loopInit = some s ∧
      s.E = (List.range (n + 1)).map (fun j => (solver j).r) ∧
      s.Psi = (List.range (n + 1)).map (fun j => (solver j).rx) ∧
      s.dex = n + 1 ∧
      vbar ≤ s.E.getD n 0 ∧
      boundstates s = s.E.length - 1 ∧
      boundstates s = n ∧
      reportedPairs s = (List.range n).map (fun j => ((solver j).r, (solver j).rx)) := by
  refine ⟨_, loopRun_char_init solver n hn hlt fuel hf, rfl, rfl, rfl, ?_, rfl, ?_, ?_⟩
  · dsimp only
    rw [getD_map_range _ (Nat.lt_succ_self n)]
    exact hn
  · simp [boundstates]
  · exact reportedPairs_char solver n

/-- Witness for `bound_state_loop_collects_until_vbar`: the concrete solver
`j ↦ j/4` stops at index 1 (`1/4 ≥ 0.23`), with fuel 2. -/
def sampleSolver : ℕ → Eigenpair := fun j => ⟨(j : ℚ) / 4, 0, [(j : ℚ)], [0]⟩

/-- A solver agreeing with `sampleSolver` on real parts but with nonzero
imaginary components. -/
def sampleSolverIm : ℕ → Eigenpair := fun j => ⟨(j : ℚ) / 4, 5, [(j : ℚ)], [7]⟩

/-- A strictly ascending solver whose first eigenvalue is negative. -/
def negSolver : ℕ → Eigenpair := fun j => ⟨(j : ℚ) - 1 / 10, 0, [], []⟩

theorem bound_state_loop_collects_until_vbar_witness :
    ∃ s, loopRun sampleSolver 2 loopInit = some s ∧
      s.E = (List.range (1 + 1)).map (fun j => (sampleSolver j).r) ∧
      s.Psi = (List.range (1 + 1)).map (fun j => (sampleSolver j).rx) ∧
      s.dex = 1 + 1 ∧
      vbar ≤ s.E.getD 1 0 ∧
      boundstates s = s.E.length - 1 ∧
      boundstates s = 1 ∧
      reportedPairs s =
        (List.range 1).map (fun j => ((sampleSolver j).r, (sampleSolver j).rx)) :=
  bound_state_loop_collects_until_vbar sampleSolver 1
    (by norm_num [sampleSolver, vbar])
    (fun j hj => by interval_cases j; norm_num [sampleSolver, vbar])
    2 (by norm_num)

/-- Claim C9: whenever the loop terminates, `r` was initialized to `0 < vbar`
so the body ran at least once: `len(E) ≥ 1`, the reported count
`boundstates = len(E) - 1` is non-negative, and it is strictly less than
`dex`, the number of eigenpairs retrieved. -/
theorem boundstates_nonneg_lt_fetched (solver : ℕ → Eigenpair) (n : ℕ)
    (hn : vbar ≤ (solver n).r) (hlt : ∀ j, j < n → (solver j).r < vbar)
    (fuel : ℕ) (hf : n + 1 ≤ fuel) :
    ∃ s, loopRun solver fuel loopInit = some s ∧
      1 ≤ s.E.length ∧ 0 ≤ boundstates s ∧ boundstates s < s.dex := by
  refine ⟨_, loopRun_char_init solver n hn hlt fuel hf, ?_, ?_, ?_⟩ <;>
    simp [boundstates]

theorem boundstates_nonneg_lt_fetched_witness :
    ∃ s, loopRun sampleSolver 2 loopInit = some s ∧
      1 ≤ s.E.length ∧ 0 ≤ boundstates s ∧ boundstates s < s.dex :=
  boundstates_nonneg_lt_fetched sampleSolver 1
    (by norm_num [sampleSolver, vbar])
    (fun j hj => by interval_cases j; norm_num [sampleSolver, vbar])
    2 (by norm_num)

/-- Counterexample to claim C2 as stated: the solver `j ↦ j - 1/10` returns
real eigenvalues in strictly ascending order, yet the loop reports
`boundstates = 1` with `E[0] = -1/10`, violating `0 ≤ E[k]`. -/
theorem reported_eigenvalue_nonneg_counterexample :
    Monotone (fun j => (negSolver j).r) ∧
    ∃ s, loopRun negSolver 2 loopInit = some s ∧
      boundstates s = 1 ∧ s.E.getD 0 0 = -(1 / 10) ∧ ¬ (0 ≤ s.E.getD 0 0) := by
  constructor
  · intro a b hab
    show ((a : ℚ) - 1 / 10) ≤ ((b : ℚ) - 1 / 10)
    have hc : (a : ℚ) ≤ b := Nat.cast_le.mpr hab
    linarith
  · refine ⟨_, loopRun_char_init negSolver 1
      (by norm_num [negSolver, vbar])
      (fun j hj => by interval_cases j; norm_num [negSolver, vbar])
      2 (by norm_num), ?_, ?_, ?_⟩
    · simp [boundstates]
    · dsimp only
      rw [getD_map_range _ (by omega : 0 < 1 + 1)]
      norm_num [negSolver]
    · dsimp only
      rw [getD_map_range _ (by omega : 0 < 1 + 1)]
      norm_num [negSolver]

/-- Claim C2 (amended): for every reported index `k`, `E[k] < vbar`, and the
reported sequence is non-decreasing, under the precondition that the solver
returns real eigenvalues ascending in index; the lower bound `0 ≤ E[k]`
additionally requires the solver's eigenvalues to be non-negative
(`0 ≤ (solver 0).r`), which the loop itself does not enforce. -/
theorem reported_eigenvalues_bounded_monotone (solver : ℕ → Eigenpair)
    (hmono : Monotone (fun j => (solver j).r)) (h0 : 0 ≤ (solver 0).r)
    (n : ℕ) (hn : vbar ≤ (solver n).r) (hlt : ∀ j, j < n → (solver j).r < vbar)
    (fuel : ℕ) (hf : n + 1 ≤ fuel) :
    ∃ s, loopRun solver fuel loopInit = some s ∧
      (∀ k, k < boundstates s → 0 ≤ s.E.getD k 0 ∧ s.E.getD k 0 < vbar) ∧
      (∀ k k', k ≤ k' → k' < boundstates s → s.E.getD k 0 ≤ s.E.getD k' 0) := by
  refine ⟨_, loopRun_char_init solver n hn hlt fuel hf, ?_, ?_⟩
  · intro k hk
    have hkn : k < n := by simpa [boundstates] using hk
    dsimp only
    rw [getD_map_range _ (by omega : k < n + 1)]
    exact ⟨le_trans h0 (hmono (Nat.zero_le k)), hlt k hkn⟩
  · intro k k' hkk hk'
    have hk'n : k' < n := by simpa [boundstates] using hk'
    dsimp only
    rw [getD_map_range _ (by omega : k < n + 1), getD_map_range _ (by omega : k' < n + 1)]
    exact hmono hkk

theorem reported_eigenvalues_bounded_monotone_witness :
    ∃ s, loopRun sampleSolver 2 loopInit = some s ∧
      (∀ k, k < boundstates s → 0 ≤ s.E.getD k 0 ∧ s.E.getD k 0 < vbar) ∧
      (∀ k k', k ≤ k' → k' < boundstates s → s.E.getD k 0 ≤ s.E.getD k' 0) :=
  reported_eigenvalues_bounded_monotone sampleSolver
    (fun a b hab => by
      show ((a : ℚ) / 4) ≤ ((b : ℚ) / 4)
      have hc : (a : ℚ) ≤ b := Nat.cast_le.mpr hab
      linarith)
    (by norm_num [sampleSolver])
    1
    (by norm_num [sampleSolver, vbar])
    (fun j hj => by interval_cases j; norm_num [sampleSolver, vbar])
    2 (by norm_num)

/-- Claim C10: the loop uses only the real parts of each fetched eigenpair —
its entire behavior is unchanged for any solver agreeing on `r` and `rx`
(the imaginary components `c` and `cx` are discarded), every stored energy is
the real eigenvalue component `r`, and every stored eigenfunction's
coefficient vector equals `rx` exactly. -/
theorem loop_uses_only_real_parts (s1 s2 : ℕ → Eigenpair)
    (hagree : ∀ j, (s1 j).r = (s2 j).r ∧ (s1 j).rx = (s2 j).rx) :
    (∀ fuel st, loopRun s1 fuel st = loopRun s2 fuel st) ∧
    ∀ n, vbar ≤ (s1 n).r → (∀ j, j < n → (s1 j).r < vbar) →
      ∀ fuel, n + 1 ≤ fuel →
        loopRun s1 fuel loopInit =
          some ⟨(s1 n).r, n + 1,
            (List.range (n + 1)).map (fun j => (s1 j).r),
            (List.range (n + 1)).map (fun j => (s1 j).rx)⟩ := by
  have hbody : ∀ st, loopBody s1 st = loopBody s2 st := by
    intro st
    unfold loopBody
    rw [(hagree st.dex).1, (hagree st.dex).2]
  constructor
  · intro fuel
    induction fuel with
    | zero => intro st; rfl
    | succ fuel ih =>
        intro st
        simp only [loopRun]
        by_cases hr : st.r < vbar
        · rw [if_pos hr, if_pos hr, hbody st, ih]
        · rw [if_neg hr, if_neg hr]
  · intro n hn hlt fuel hf
    exact loopRun_char_init s1 n hn hlt fuel hf

theorem loop_uses_only_real_parts_witness :
    (∀ fuel st, loopRun sampleSolverIm fuel st = loopRun sampleSolver fuel st) ∧
    ∀ n, vbar ≤ (sampleSolverIm n).r → (∀ j, j < n → (sampleSolverIm j).r < vbar) →
      ∀ fuel, n + 1 ≤ fuel →
        loopRun sampleSolverIm fuel loopInit =
          some ⟨(sampleSolverIm n).r, n + 1,
            (List.range (n + 1)).map (fun j => (sampleSolverIm j).r),
            (List.range (n + 1)).map (fun j => (sampleSolverIm j).rx)⟩ :=
  loop_uses_only_real_parts sampleSolverIm sampleSolver (fun _ => ⟨rfl, rfl⟩)

end FiniteWell
